import Mathlib

/-!
Shallow embedding of the feed-aggregation server core: the deduplicating
article store and feed cache (server/db.ts), the metrics ring buffer
(server/metrics.ts), the per-feed fetch-and-store pipeline and HTML
sanitizer (server/scheduler.ts), and the batching translation queue
(server/translator.ts).

JavaScript `Map` objects are modelled as insertion-ordered association
lists; `Map.set` on a fresh key appends at the end.  The SHA-256 digest
(Node's `crypto.createHash`, external to the repository) is passed in as
an abstract function `hash : String → String`; every claim about identity
derivation only needs that it is a fixed function of the link.  The
translation provider (`lingoDotDev.localizeObject`, external SDK) is
likewise a function parameter returning `Except`: `.error` is a rejected
promise caught by the surrounding try/catch, `.ok` a resolved response
object.  Timestamps (`Date.now()`, `new Date().toISOString()`) are inputs.
-/

namespace Lingo

/-- The JavaScript whitespace class: the code points matched by the regex
class `\s` and stripped by `String.prototype.trim` (ECMA-262 WhiteSpace
plus LineTerminator). -/
def isJsWs (c : Char) : Bool :=
  c = '\t' || c = '\n' || c.toNat = 0x0B || c.toNat = 0x0C || c = '\r' || c = ' ' ||
  c.toNat = 0xA0 || c.toNat = 0x1680 ||
  (0x2000 ≤ c.toNat && c.toNat ≤ 0x200A) ||
  c.toNat = 0x2028 || c.toNat = 0x2029 || c.toNat = 0x202F ||
  c.toNat = 0x205F || c.toNat = 0x3000 || c.toNat = 0xFEFF

/-- `String.prototype.trim`: drop JS whitespace from both ends (list form). -/
def jsTrimList (l : List Char) : List Char :=
  ((l.dropWhile isJsWs).reverse.dropWhile isJsWs).reverse

/-- `String.prototype.trim` on strings. -/
def jsTrim (s : String) : String :=
  (jsTrimList s.data).asString

/-- One match of the regex `<[^>]*>` starting at a `<`: scan to the first
`>`; return the remainder after it, or `none` when no `>` follows (in which
case the regex does not match at this position). -/
def splitAtGt : List Char → Option (List Char)
  | [] => none
  | c :: cs => if c = '>' then some cs else splitAtGt cs

theorem splitAtGt_length :
    ∀ (l r : List Char), splitAtGt l = some r → r.length < l.length := by
  intro l
  induction l with
  | nil => intro r h; simp [splitAtGt] at h
  | cons c cs ih =>
    intro r h
    simp only [splitAtGt] at h
    by_cases hc : c = '>'
    · simp [hc] at h
      simp [← h, List.length_cons]
    · simp [hc] at h
      exact Nat.lt_trans (ih r h) (Nat.lt_succ_self _)

/-- `.replace(/<[^>]*>/g, "")`: remove every `<...>` span; a `<` with no
later `>` is kept verbatim, as the regex cannot match there. -/
def stripTagsList : List Char → List Char
  | [] => []
  | c :: cs =>
    if c = '<' then
      match h : splitAtGt cs with
      | some rest => stripTagsList rest
      | none => c :: cs
    else c :: stripTagsList cs
termination_by l => l.length
decreasing_by
  · exact Nat.lt_trans (splitAtGt_length cs rest h) (Nat.lt_succ_self _)
  · simp

theorem dropWhile_length_le (p : Char → Bool) :
    ∀ l : List Char, (l.dropWhile p).length ≤ l.length := by
  intro l
  induction l with
  | nil => simp [List.dropWhile]
  | cons c cs ih =>
    simp only [List.dropWhile]
    by_cases hc : p c = true
    · simp only [hc]
      exact Nat.le_succ_of_le ih
    · simp [hc]

/-- `.replace(/\s+/g, " ")`: collapse every run of JS whitespace to one
space. -/
def collapseWsList : List Char → List Char
  | [] => []
  | c :: cs =>
    if isJsWs c then ' ' :: collapseWsList (cs.dropWhile isJsWs)
    else c :: collapseWsList cs
termination_by l => l.length
decreasing_by
  · exact Nat.lt_succ_of_le (dropWhile_length_le isJsWs cs)
  · simp

/-- The six sequential entity replacements of `cleanHtml`, in source
order. -/
def unescapeEntities (s : String) : String :=
  (((((s.replace "&nbsp;" " ").replace "&amp;" "&").replace "&lt;" "<").replace
      "&gt;" ">").replace "&quot;" "\"").replace "&#39;" "'"

/-- `cleanHtml` from server/scheduler.ts: falsy (empty) input short-circuits
to `""`; otherwise strip tags, un-escape entities, collapse whitespace,
trim, and slice to the first 1000 characters. -/
def cleanHtml (str : String) : String :=
  if str = "" then ""
  else
    ((jsTrimList (collapseWsList
        (unescapeEntities (stripTagsList str.data).asString).data)).take 1000).asString

/-- The sanitizer as the spec words it: strip HTML tags, un-escape the
entities `&nbsp;` `&amp;` `&lt;` `&gt;` `&quot;` `&#39;`, collapse runs of
whitespace to single spaces, trim, cap length at 1000 characters; an empty
input yields the empty string. -/
def cleanHtmlSpec (str : String) : String :=
  if str = "" then ""
  else
    ((jsTrimList (collapseWsList
        (unescapeEntities (stripTagsList str.data).asString).data)).take 1000).asString

/-! ## Article store (server/db.ts) -/

structure Translation where
  title : String
  description : String
  translatedAt : String
deriving DecidableEq

structure StoredArticle where
  id : String
  guid : Option String
  title : String
  description : String
  link : String
  pubDate : String
  category : String
  subcategory : String
  source : String
  sourceLocale : String
  ingestedAt : String
  translations : List (String × Translation)
deriving DecidableEq

/-- The `articles` map, keyed by dedup id (keys live inside the records). -/
abbrev Store := List StoredArticle

/-- `generateArticleId`: a non-empty trimmed guid is used verbatim;
otherwise the SHA-256 hex digest of the link (`hash` is the external
digest function; `link || ""` is the identity on strings since `""` is
already the fallback). -/
def generateArticleId (hash : String → String) (guid : Option String)
    (link : String) : String :=
  match guid with
  | some g => if 0 < (jsTrim g).length then jsTrim g else hash link
  | none => hash link

def hasId (s : Store) (id : String) : Bool :=
  s.any (fun a => a.id == id)

/-- `upsertArticle`: skip (returning false) when the id is present, else
append and return true.  Never overwrites. -/
def upsertArticle (s : Store) (a : StoredArticle) : Store × Bool :=
  if hasId s a.id then (s, false) else (s ++ [a], true)

def getArticle (s : Store) (id : String) : Option StoredArticle :=
  s.find? (fun a => a.id == id)

def getArticleCount (s : Store) : Nat := s.length

/-- Truthiness of `article.translations[locale]`. -/
def hasTranslationFor (a : StoredArticle) (locale : String) : Bool :=
  a.translations.any (fun p => p.1 == locale)

def getUntranslatedArticles (s : Store) (locale : String) : List StoredArticle :=
  s.filter (fun a => !(hasTranslationFor a locale))

/-- JS object property write `translations[locale] = t`: overwrite in place
when the key exists, else append. -/
def setTranslationEntry (ts : List (String × Translation)) (locale : String)
    (t : Translation) : List (String × Translation) :=
  if ts.any (fun p => p.1 == locale) then
    ts.map (fun p => if p.1 == locale then (locale, t) else p)
  else ts ++ [(locale, t)]

/-- `storeTranslation`: write the entry for `locale` on the article with the
given id (fresh timestamp `now`); a no-op when the id is unknown. -/
def storeTranslation (s : Store) (articleId locale title description now : String) :
    Store :=
  s.map (fun a =>
    if a.id == articleId then
      { a with translations :=
          setTranslationEntry a.translations locale ⟨title, description, now⟩ }
    else a)

def lookupTranslation (ts : List (String × Translation)) (locale : String) :
    Option Translation :=
  (ts.find? (fun p => p.1 == locale)).map Prod.snd

structure FeedCacheEntry where
  etag : Option String
  lastModified : Option String
deriving DecidableEq

def getFeedCache (fc : List (String × FeedCacheEntry)) (url : String) :
    Option FeedCacheEntry :=
  (fc.find? (fun p => p.1 == url)).map Prod.snd

def setFeedCache (fc : List (String × FeedCacheEntry)) (url : String)
    (e : FeedCacheEntry) : List (String × FeedCacheEntry) :=
  if fc.any (fun p => p.1 == url) then
    fc.map (fun p => if p.1 == url then (url, e) else p)
  else fc ++ [(url, e)]

/-! ## Metrics log (server/metrics.ts) -/

structure FetchMetric where
  feedUrl : String
  source : String
  timestamp : Nat
  durationMs : Nat
  articlesAdded : Nat
  totalArticlesInFeed : Nat
  skipped304 : Bool
  error : Option String
deriving DecidableEq

def MAX_METRICS_HISTORY : Nat := 500

/-- `logFetchMetric`: push, then `splice(0, length - MAX_METRICS_HISTORY)`
when over the cap (console printing is not state). -/
def logFetchMetric (log : List FetchMetric) (m : FetchMetric) : List FetchMetric :=
  if MAX_METRICS_HISTORY < (log ++ [m]).length then
    (log ++ [m]).drop ((log ++ [m]).length - MAX_METRICS_HISTORY)
  else log ++ [m]

/-- A sequence of `logFetchMetric` calls. -/
def logAll (log : List FetchMetric) (ms : List FetchMetric) : List FetchMetric :=
  ms.foldl logFetchMetric log

/-! ## Feed scheduler pipeline (server/scheduler.ts)

One invocation of `fetchAndStoreFeed` for one feed.  The HTTP exchange is
an input: `notModified` is status 304; `ok` carries the validator headers
of the response and the already-parsed XML document (xml2js is external;
the RSS/Atom shape dispatch below is the repository's); `failed` is any
caught error — non-ok status (the `throw` lands in the same catch),
timeout, network failure, or parse failure.  Raw items are the normalized
field bundles the extraction chains produce. -/

structure FeedConfig where
  url : String
  category : String
  subcategory : String
  source : String
  pollIntervalMinutes : Nat
  sourceLocale : String
deriving DecidableEq

structure RawItem where
  rawGuid : Option String
  link : String
  title : String
  description : String
  pubDate : String
deriving DecidableEq

/-- A `channel.item` / `feed.entry` field: absent, a single unwrapped
object, or an array. -/
inductive ItemsField where
  | absent
  | single (item : RawItem)
  | many (items : List RawItem)
deriving DecidableEq

/-- The parsed document shape dispatch: `result.rss?.channel`, else
`result.feed?.entry`, else no items. -/
inductive ParsedDoc where
  | rssChannel (item : ItemsField)
  | atomFeed (entries : ItemsField)
  | other
deriving DecidableEq

def itemsOf : ParsedDoc → List RawItem
  | .rssChannel .absent => []
  | .rssChannel (.single i) => [i]
  | .rssChannel (.many l) => l
  | .atomFeed .absent => []
  | .atomFeed (.single i) => [i]
  | .atomFeed (.many l) => l
  | .other => []

inductive FetchResponse where
  | notModified
  | ok (etag : Option String) (lastModified : Option String) (doc : ParsedDoc)
  | failed (message : String)
deriving DecidableEq

structure ServerState where
  articles : Store
  feedCache : List (String × FeedCacheEntry)
  metricsLog : List FetchMetric
deriving DecidableEq

/-- Build the `StoredArticle` candidate for one raw item. -/
def itemToArticle (hash : String → String) (feed : FeedConfig) (nowIso : String)
    (item : RawItem) : StoredArticle :=
  { id := generateArticleId hash item.rawGuid item.link
    guid := item.rawGuid
    title := cleanHtml item.title
    description := cleanHtml item.description
    link := item.link
    pubDate := item.pubDate
    category := feed.category
    subcategory := feed.subcategory
    source := feed.source
    sourceLocale := feed.sourceLocale
    ingestedAt := nowIso
    translations := [] }

/-- `fetchAndStoreFeed` as a state transformer.  `timestamp`/`durationMs`
are the metric's clock readings; `nowIso` is the ingestion timestamp.
`triggerQueueProcessing` on the success path is fire-and-forget and does
not touch this state. -/
def fetchAndStoreFeed (hash : String → String) (feed : FeedConfig)
    (resp : FetchResponse) (timestamp durationMs : Nat) (nowIso : String)
    (st : ServerState) : ServerState :=
  match resp with
  | .notModified =>
    let m : FetchMetric :=
      { feedUrl := feed.url, source := feed.source, timestamp := timestamp,
        durationMs := durationMs, articlesAdded := 0, totalArticlesInFeed := 0,
        skipped304 := true, error := none }
    { st with metricsLog := logFetchMetric st.metricsLog m }
  | .failed msg =>
    let m : FetchMetric :=
      { feedUrl := feed.url, source := feed.source, timestamp := timestamp,
        durationMs := durationMs, articlesAdded := 0, totalArticlesInFeed := 0,
        skipped304 := false, error := some msg }
    { st with metricsLog := logFetchMetric st.metricsLog m }
  | .ok etag lastModified doc =>
    let fc := if etag.isSome || lastModified.isSome then
        setFeedCache st.feedCache feed.url
          { etag := etag, lastModified := lastModified }
      else st.feedCache
    let items := itemsOf doc
    let res := items.foldl (fun (acc : Store × Nat) item =>
        let r := upsertArticle acc.1 (itemToArticle hash feed nowIso item)
        (r.1, if r.2 then acc.2 + 1 else acc.2)) (st.articles, 0)
    let m : FetchMetric :=
      { feedUrl := feed.url, source := feed.source, timestamp := timestamp,
        durationMs := durationMs, articlesAdded := res.2,
        totalArticlesInFeed := items.length, skipped304 := false, error := none }
    { articles := res.1, feedCache := fc,
      metricsLog := logFetchMetric st.metricsLog m }

/-! ## Translation queue (server/translator.ts)

The provider is `lingoDotDev.localizeObject` behind the SDK: it takes the
flattened key→text object and the source/target locales; `.error` is a
rejected call (caught by `translateBatch`'s try/catch), `.ok` the returned
object.  The single-flight `isProcessing` flag and the timers are
scheduling concerns outside one cycle; a cycle is the synchronous-state
trace below. -/

def ENABLED_LOCALES : List String := ["en", "ar"]

def BATCH_SIZE : Nat := 20

def Provider : Type :=
  List (String × String) → String → String → Except String (List (String × String))

/-- The flattened key→text object: two keys per article. -/
def buildTextObj (articles : List StoredArticle) : List (String × String) :=
  articles.foldl (fun acc a =>
    acc ++ [(a.id ++ "__title", a.title), (a.id ++ "__desc", a.description)]) []

/-- `articles[0]?.sourceLocale || "en"`. -/
def batchSourceLocale (articles : List StoredArticle) : String :=
  match articles.head? with
  | some a => if a.sourceLocale = "" then "en" else a.sourceLocale
  | none => "en"

/-- JS object read `translated[key]` on a response object. -/
def lookupKey (m : List (String × String)) (k : String) : Option String :=
  (m.find? (fun p => p.1 == k)).map Prod.snd

/-- JS `x || fallback` on an optional string: missing or empty falls back. -/
def jsOr (v : Option String) (fallback : String) : String :=
  match v with
  | some t => if t = "" then fallback else t
  | none => fallback

/-- `translateBatch`: one provider call for the whole batch; on failure the
catch block performs no store writes; on success one `storeTranslation` per
article, falling back to the original text per key. -/
def translateBatch (p : Provider) (now : String) (articles : List StoredArticle)
    (targetLocale : String) (st : Store) : Store :=
  match p (buildTextObj articles) (batchSourceLocale articles) targetLocale with
  | .error _ => st
  | .ok translated =>
    articles.foldl (fun s a =>
      storeTranslation s a.id targetLocale
        (jsOr (lookupKey translated (a.id ++ "__title")) a.title)
        (jsOr (lookupKey translated (a.id ++ "__desc")) a.description)
        now) st

/-- Structural worker for `chunkList`: the fuel starts at the list length
and strictly bounds the recursion depth (each step drops at least one
element when `n > 0`), so the fuel-exhausted branch is never taken. -/
def chunkListAux (n : Nat) : Nat → List α → List (List α)
  | _, [] => []
  | 0, _ :: _ => []
  | fuel + 1, x :: xs => (x :: xs).take n :: chunkListAux n fuel ((x :: xs).drop n)

/-- The batching loop `for (let i = 0; i < len; i += BATCH_SIZE)` as the
list of slices. -/
def chunkList (n : Nat) (l : List α) : List (List α) :=
  if n = 0 then [] else chunkListAux n l.length l

/-- The per-locale inner loop over batches. -/
def foldBatches (p : Provider) (now : String) (locale : String)
    (bs : List (List StoredArticle)) (st : Store) : Store :=
  bs.foldl (fun s b => translateBatch p now b locale s) st

/-- One locale of `processQueue`: snapshot the untranslated articles,
exclude self-locale articles, and translate batch by batch.  (The two
`continue`s for empty lists are identities of this fold; `sleep` between
batches does not change state.) -/
def processLocale (p : Provider) (now : String) (st : Store) (locale : String) :
    Store :=
  foldBatches p now locale
    (chunkList BATCH_SIZE
      ((getUntranslatedArticles st locale).filter (fun a => a.sourceLocale != locale)))
    st

def processLocales (p : Provider) (now : String) (locales : List String)
    (st : Store) : Store :=
  locales.foldl (processLocale p now) st

/-- One full `processQueue` cycle over the enabled locales. -/
def processQueue (p : Provider) (now : String) (st : Store) : Store :=
  processLocales p now ENABLED_LOCALES st

/-! ## Derived observers used by the statements -/

/-- Number of stored articles carrying a given id. -/
def countId (s : Store) (id : String) : Nat :=
  (s.filter (fun a => a.id == id)).length

/-- An arbitrary sequence of upsert calls. -/
def upsertAll (s : Store) (l : List StoredArticle) : Store :=
  l.foldl (fun st a => (upsertArticle st a).1) s

/-! ## Store lemmas -/

theorem hasId_false_iff (s : Store) (id : String) :
    hasId s id = false ↔ ∀ a ∈ s, a.id ≠ id := by
  simp [hasId, List.any_eq_false]

theorem getArticle_eq_none_of_hasId_false (s : Store) (id : String)
    (h : hasId s id = false) : getArticle s id = none := by
  rw [getArticle, List.find?_eq_none]
  intro a ha
  simp only [beq_iff_eq]
  exact (hasId_false_iff s id).mp h a ha

theorem getArticle_append_of_not_found (s l : List StoredArticle) (id : String)
    (h : hasId s id = false) : getArticle (s ++ l) id = getArticle l id := by
  rw [getArticle, List.find?_append]
  have h2 : List.find? (fun a => a.id == id) s = none :=
    getArticle_eq_none_of_hasId_false s id h
  rw [h2, Option.none_or]
  rfl

theorem getArticle_append_of_found (s l : List StoredArticle) (id : String)
    (h : hasId s id = true) : getArticle (s ++ l) id = getArticle s id := by
  rw [getArticle, List.find?_append]
  rcases hf : List.find? (fun a => a.id == id) s with _ | v
  · exfalso
    rw [List.find?_eq_none] at hf
    obtain ⟨a, ha, hai⟩ := by
      simpa [hasId, List.any_eq_true] using h
    exact hf a ha (by simp [beq_iff_eq, hai])
  · unfold getArticle
    rw [hf]
    rfl

theorem hasId_append (s l : List StoredArticle) (id : String) :
    hasId (s ++ l) id = (hasId s id || hasId l id) := by
  simp [hasId, List.any_append]

theorem hasId_self_append (s : Store) (a : StoredArticle) :
    hasId (s ++ [a]) a.id = true := by
  simp [hasId_append, hasId]

theorem countId_append (s l : List StoredArticle) (id : String) :
    countId (s ++ l) id = countId s id + countId l id := by
  simp [countId, List.filter_append]

theorem countId_eq_zero_of_hasId_false (s : Store) (id : String)
    (h : hasId s id = false) : countId s id = 0 := by
  rw [countId]
  have : s.filter (fun a => a.id == id) = [] := by
    rw [List.filter_eq_nil_iff]
    intro a ha
    simp only [beq_iff_eq]
    exact (hasId_false_iff s id).mp h a ha
  rw [this]
  rfl

theorem countId_single_self (a : StoredArticle) : countId [a] a.id = 1 := by
  simp [countId]

theorem upsertArticle_fresh (s : Store) (a : StoredArticle)
    (h : hasId s a.id = false) : upsertArticle s a = (s ++ [a], true) := by
  simp [upsertArticle, h]

theorem upsertArticle_dup (s : Store) (a : StoredArticle)
    (h : hasId s a.id = true) : upsertArticle s a = (s, false) := by
  simp [upsertArticle, h]

theorem upsert_keeps (s : Store) (b : StoredArticle) (id : String)
    (h : hasId s id = true) :
    hasId (upsertArticle s b).1 id = true ∧
    getArticle (upsertArticle s b).1 id = getArticle s id ∧
    countId (upsertArticle s b).1 id = countId s id := by
  by_cases hb : hasId s b.id = true
  · rw [upsertArticle_dup s b hb]
    exact ⟨h, rfl, rfl⟩
  · have hb2 : hasId s b.id = false := by simpa using hb
    have hbid : b.id ≠ id := by
      intro he
      rw [he, h] at hb2
      cases hb2
    rw [upsertArticle_fresh s b hb2]
    refine ⟨?_, ?_, ?_⟩
    · rw [hasId_append, h]
      rfl
    · exact getArticle_append_of_found s [b] id h
    · rw [countId_append]
      have : countId [b] id = 0 := by simp [countId, hbid]
      rw [this]
      rfl

theorem upsertAll_keeps (l : List StoredArticle) (s : Store) (id : String)
    (h : hasId s id = true) :
    hasId (upsertAll s l) id = true ∧
    getArticle (upsertAll s l) id = getArticle s id ∧
    countId (upsertAll s l) id = countId s id := by
  induction l generalizing s with
  | nil => exact ⟨h, rfl, rfl⟩
  | cons b t ih =>
    have hk := upsert_keeps s b id h
    have ht := ih ((upsertArticle s b).1) hk.1
    exact ⟨ht.1, ht.2.1.trans hk.2.1, ht.2.2.trans hk.2.2⟩

/-! ## Claim theorems: C1, C2, C10 -/

/-- C1: upsert is idempotent on the dedup id.  Inserting an article whose
id is absent returns true; after any further sequence of upserts, another
upsert with an article carrying the same id returns false and leaves the
store unchanged, the store holds exactly one article with that id, and
`getArticle` still returns the originally inserted article with every
field (title, description, link, pubDate, category, subcategory, source,
sourceLocale, ingestedAt, translations) intact — it never overwrites. -/
theorem C1_upsert_idempotent (s : Store) (a a2 : StoredArticle)
    (l : List StoredArticle) (hfresh : hasId s a.id = false)
    (hid : a2.id = a.id) :
    (upsertArticle s a).2 = true ∧
    (upsertArticle (upsertAll (upsertArticle s a).1 l) a2).2 = false ∧
    (upsertArticle (upsertAll (upsertArticle s a).1 l) a2).1 =
      upsertAll (upsertArticle s a).1 l ∧
    getArticle (upsertAll (upsertArticle s a).1 l) a.id = some a ∧
    countId (upsertAll (upsertArticle s a).1 l) a.id = 1 := by
  have hins : upsertArticle s a = (s ++ [a], true) := upsertArticle_fresh s a hfresh
  have h1 : hasId (s ++ [a]) a.id = true := hasId_self_append s a
  have hget : getArticle (s ++ [a]) a.id = some a := by
    rw [getArticle_append_of_not_found s [a] a.id hfresh]
    simp [getArticle]
  have hcount : countId (s ++ [a]) a.id = 1 := by
    rw [countId_append, countId_eq_zero_of_hasId_false s a.id hfresh,
      countId_single_self]
  rw [hins]
  dsimp only
  have hkeeps := upsertAll_keeps l (s ++ [a]) a.id h1
  have h2 : hasId (upsertAll (s ++ [a]) l) a2.id = true := by
    rw [hid]
    exact hkeeps.1
  refine ⟨rfl, ?_, ?_, ?_, ?_⟩
  · rw [upsertArticle_dup _ _ h2]
  · rw [upsertArticle_dup _ _ h2]
  · rw [hkeeps.2.1, hget]
  · rw [hkeeps.2.2, hcount]

def c1a : StoredArticle :=
  { id := "g1", guid := some "g1", title := "T", description := "D", link := "L",
    pubDate := "P", category := "C", subcategory := "SC", source := "S",
    sourceLocale := "en", ingestedAt := "I", translations := [] }

def c1a2 : StoredArticle :=
  { id := "g1", guid := some "g1", title := "T2", description := "D2", link := "L2",
    pubDate := "P2", category := "C2", subcategory := "SC2", source := "S2",
    sourceLocale := "ar", ingestedAt := "I2", translations := [] }

def c1b : StoredArticle :=
  { id := "g2", guid := some "g2", title := "U", description := "E", link := "M",
    pubDate := "Q", category := "C", subcategory := "SC", source := "S",
    sourceLocale := "en", ingestedAt := "J", translations := [] }

theorem C1_witness :
    (upsertArticle [] c1a).2 = true ∧
    (upsertArticle (upsertAll (upsertArticle [] c1a).1 [c1b]) c1a2).2 = false ∧
    (upsertArticle (upsertAll (upsertArticle [] c1a).1 [c1b]) c1a2).1 =
      upsertAll (upsertArticle [] c1a).1 [c1b] ∧
    getArticle (upsertAll (upsertArticle [] c1a).1 [c1b]) c1a.id = some c1a ∧
    countId (upsertAll (upsertArticle [] c1a).1 [c1b]) c1a.id = 1 :=
  C1_upsert_idempotent [] c1a c1a2 [c1b] (by decide) (by decide)

/-- C2: identity derivation is deterministic (it is a pure function of the
`(guid, link)` pair): a guid whose trimmed form is non-empty yields that
trimmed guid verbatim; an absent guid, or one trimming to empty, yields the
SHA-256 hex digest of the link, so two such items with identical links
derive the same id. -/
theorem C2_generateArticleId_spec (hash : String → String) (g link : String) :
    (0 < (jsTrim g).length → generateArticleId hash (some g) link = jsTrim g) ∧
    ((jsTrim g).length = 0 → generateArticleId hash (some g) link = hash link) ∧
    generateArticleId hash none link = hash link ∧
    ((jsTrim g).length = 0 →
      generateArticleId hash (some g) link = generateArticleId hash none link) := by
  refine ⟨?_, ?_, rfl, ?_⟩ <;> intro h <;> simp [generateArticleId, h]

theorem C2_witness :
    generateArticleId (fun _ => "HASH") (some " id-1 ") "http://x" = jsTrim " id-1 " ∧
    generateArticleId (fun _ => "HASH") (some " ") "http://x" = "HASH" ∧
    generateArticleId (fun _ => "HASH") (some " ") "http://x" =
      generateArticleId (fun _ => "HASH") none "http://x" :=
  ⟨(C2_generateArticleId_spec (fun _ => "HASH") " id-1 " "http://x").1 (by decide),
   (C2_generateArticleId_spec (fun _ => "HASH") " " "http://x").2.1 (by decide),
   (C2_generateArticleId_spec (fun _ => "HASH") " " "http://x").2.2.2 (by decide)⟩

/-- C10: two items lacking a usable guid (absent in the model, or trimming
to empty — a non-string guid reaches the store as null) whose link is the
empty string both derive the id `hash ""` (the SHA-256 digest of the empty
string), so once the first such article is inserted, a later one is
reported as a duplicate by `upsertArticle` and dropped without changing
the store. -/
theorem C10_empty_link_collision (hash : String → String) (g1 g2 : Option String)
    (st : Store) (a1 a2 : StoredArticle)
    (hg1 : ∀ s, g1 = some s → (jsTrim s).length = 0)
    (hg2 : ∀ s, g2 = some s → (jsTrim s).length = 0)
    (hid1 : a1.id = generateArticleId hash g1 "")
    (hid2 : a2.id = generateArticleId hash g2 "")
    (hfresh : hasId st a1.id = false) :
    a1.id = hash "" ∧ a2.id = a1.id ∧
    (upsertArticle st a1).2 = true ∧
    (upsertArticle (upsertArticle st a1).1 a2).2 = false ∧
    (upsertArticle (upsertArticle st a1).1 a2).1 = (upsertArticle st a1).1 := by
  have hgen : ∀ (g : Option String), (∀ s, g = some s → (jsTrim s).length = 0) →
      generateArticleId hash g "" = hash "" := by
    intro g hg
    cases g with
    | none => rfl
    | some s =>
      have hz := hg s rfl
      simp [generateArticleId, hz]
  have e1 : a1.id = hash "" := by rw [hid1, hgen g1 hg1]
  have e2 : a2.id = a1.id := by rw [hid2, hgen g2 hg2, e1]
  have hins : upsertArticle st a1 = (st ++ [a1], true) :=
    upsertArticle_fresh st a1 hfresh
  have hdup : hasId (st ++ [a1]) a2.id = true := by
    rw [e2]
    exact hasId_self_append st a1
  refine ⟨e1, e2, ?_, ?_, ?_⟩
  · rw [hins]
  · rw [hins]
    dsimp only
    rw [upsertArticle_dup _ _ hdup]
  · rw [hins]
    dsimp only
    rw [upsertArticle_dup _ _ hdup]

def c10a1 : StoredArticle :=
  { id := "EMPTYHASH", guid := none, title := "T", description := "D", link := "",
    pubDate := "P", category := "C", subcategory := "SC", source := "S",
    sourceLocale := "en", ingestedAt := "I", translations := [] }

def c10a2 : StoredArticle :=
  { id := "EMPTYHASH", guid := some " ", title := "T2", description := "D2",
    link := "", pubDate := "P2", category := "C2", subcategory := "SC2",
    source := "S2", sourceLocale := "ar", ingestedAt := "I2", translations := [] }

theorem C10_witness :
    c10a1.id = "EMPTYHASH" ∧ c10a2.id = c10a1.id ∧
    (upsertArticle [] c10a1).2 = true ∧
    (upsertArticle (upsertArticle [] c10a1).1 c10a2).2 = false ∧
    (upsertArticle (upsertArticle [] c10a1).1 c10a2).1 =
      (upsertArticle [] c10a1).1 :=
  C10_empty_link_collision (fun _ => "EMPTYHASH") none (some " ") [] c10a1 c10a2
    (fun _ h => nomatch h) (fun s h => by cases h; decide)
    (by decide) (by decide) (by decide)

/-! ## Claim theorems: C4, C3 -/

theorem logAll_shift (ms : List FetchMetric) : ∀ log : List FetchMetric,
    log.length ≤ MAX_METRICS_HISTORY →
    logAll log ms = (log ++ ms).drop (log.length + ms.length - MAX_METRICS_HISTORY) := by
  induction ms with
  | nil =>
    intro log h
    have hz : log.length + 0 - MAX_METRICS_HISTORY = 0 := by omega
    simp only [logAll, List.foldl_nil, List.append_nil, List.length_nil, hz,
      List.drop_zero]
  | cons m t ih =>
    intro log h
    show logAll (logFetchMetric log m) t = _
    by_cases hlen : MAX_METRICS_HISTORY < (log ++ [m]).length
    · have h500 : log.length = MAX_METRICS_HISTORY := by
        simp only [List.length_append, List.length_singleton, List.length_cons, List.length_nil] at hlen
        omega
      have hstep : logFetchMetric log m =
          (log ++ [m]).drop ((log ++ [m]).length - MAX_METRICS_HISTORY) := by
        unfold logFetchMetric
        rw [if_pos hlen]
      have hd1 : (log ++ [m]).length - MAX_METRICS_HISTORY = 1 := by
        simp only [List.length_append, List.length_singleton, List.length_cons, List.length_nil]
        omega
      have hlen2 : ((log ++ [m]).drop 1).length = MAX_METRICS_HISTORY := by
        simp only [List.length_drop, List.length_append, List.length_singleton, List.length_cons, List.length_nil]
        omega
      rw [hstep, hd1, ih _ (le_of_eq hlen2), hlen2]
      have hsplit : ((log ++ [m]) ++ t).drop 1 = (log ++ [m]).drop 1 ++ t :=
        List.drop_append_of_le_length (by
          simp only [List.length_append, List.length_singleton, List.length_cons, List.length_nil]
          omega)
      rw [← hsplit, List.drop_drop]
      have harr : (log ++ [m]) ++ t = log ++ m :: t := by
        rw [List.append_assoc, List.singleton_append]
      rw [harr]
      have hidx : 1 + (MAX_METRICS_HISTORY + t.length - MAX_METRICS_HISTORY) =
          log.length + (m :: t).length - MAX_METRICS_HISTORY := by
        simp only [List.length_cons]
        omega
      rw [hidx]
    · have hstep : logFetchMetric log m = log ++ [m] := by
        unfold logFetchMetric
        rw [if_neg hlen]
      have hlen3 : (log ++ [m]).length ≤ MAX_METRICS_HISTORY := by
        simp only [List.length_append, List.length_singleton, List.length_cons, List.length_nil] at hlen ⊢
        omega
      rw [hstep, ih _ hlen3]
      have harr : (log ++ [m]) ++ t = log ++ m :: t := by
        rw [List.append_assoc, List.singleton_append]
      rw [harr]
      have hidx : (log ++ [m]).length + t.length - MAX_METRICS_HISTORY =
          log.length + (m :: t).length - MAX_METRICS_HISTORY := by
        simp only [List.length_append, List.length_singleton, List.length_cons, List.length_nil, List.length_cons]
        omega
      rw [hidx]

/-- C4: the metrics history is bounded at 500 with oldest-first eviction:
running any sequence of `logFetchMetric` calls from the empty history
retains exactly the suffix of the 500 most recent metrics in append order
(all of them when there are at most 500), so more than 500 calls leave
length exactly 500. -/
theorem C4_metrics_bound (ms : List FetchMetric) :
    logAll [] ms = ms.drop (ms.length - MAX_METRICS_HISTORY) ∧
    (logAll [] ms).length = min ms.length MAX_METRICS_HISTORY := by
  have h := logAll_shift ms [] (by simp [MAX_METRICS_HISTORY])
  simp only [List.nil_append, List.length_nil, Nat.zero_add] at h
  refine ⟨h, ?_⟩
  rw [h, List.length_drop]
  omega

/-- C3: a 304 response leaves the article store and the feed cache
untouched and only records one metric: the resulting metrics log is
exactly one `logFetchMetric` call with the not-modified flag set, zero
articles added and no error — below the cap that is literally the old log
with the one metric appended. -/
theorem C3_not_modified_frame (hash : String → String) (feed : FeedConfig)
    (ts dur : Nat) (nowIso : String) (st : ServerState) :
    (fetchAndStoreFeed hash feed .notModified ts dur nowIso st).articles =
      st.articles ∧
    (fetchAndStoreFeed hash feed .notModified ts dur nowIso st).feedCache =
      st.feedCache ∧
    (fetchAndStoreFeed hash feed .notModified ts dur nowIso st).metricsLog =
      logFetchMetric st.metricsLog
        { feedUrl := feed.url, source := feed.source, timestamp := ts,
          durationMs := dur, articlesAdded := 0, totalArticlesInFeed := 0,
          skipped304 := true, error := none } ∧
    (st.metricsLog.length < MAX_METRICS_HISTORY →
      (fetchAndStoreFeed hash feed .notModified ts dur nowIso st).metricsLog =
        st.metricsLog ++
          [{ feedUrl := feed.url, source := feed.source, timestamp := ts,
             durationMs := dur, articlesAdded := 0, totalArticlesInFeed := 0,
             skipped304 := true, error := none }]) := by
  refine ⟨rfl, rfl, rfl, ?_⟩
  intro hlen
  show logFetchMetric _ _ = _
  have hno : ¬ MAX_METRICS_HISTORY < (st.metricsLog ++
      [{ feedUrl := feed.url, source := feed.source, timestamp := ts,
         durationMs := dur, articlesAdded := 0, totalArticlesInFeed := 0,
         skipped304 := true, error := none : FetchMetric }]).length := by
    simp only [List.length_append, List.length_singleton]
    omega
  unfold logFetchMetric
  rw [if_neg hno]

def c3feed : FeedConfig :=
  { url := "https://example.org/rss", category := "C", subcategory := "SC",
    source := "S", pollIntervalMinutes := 3, sourceLocale := "en" }

theorem C3_witness :
    (fetchAndStoreFeed (fun _ => "h") c3feed .notModified 5 7 "t"
        ⟨[], [], []⟩).metricsLog =
      [{ feedUrl := c3feed.url, source := c3feed.source, timestamp := 5,
         durationMs := 7, articlesAdded := 0, totalArticlesInFeed := 0,
         skipped304 := true, error := none }] :=
  (C3_not_modified_frame (fun _ => "h") c3feed 5 7 "t" ⟨[], [], []⟩).2.2.2
    (by decide)

/-! ## Claim theorem: C7 -/

theorem headD_eq_getD (l : List Char) (d : Char) : l.headD d = l.head?.getD d := by
  cases l <;> rfl

theorem dropWhile_headD_not (p : Char → Bool) (d : Char) (hd : p d = false) :
    ∀ l : List Char, p ((l.dropWhile p).headD d) = false := by
  intro l
  induction l with
  | nil => simpa [List.dropWhile]
  | cons c cs ih =>
    rw [List.dropWhile_cons]
    by_cases hc : p c = true
    · rw [if_pos hc]
      exact ih
    · have hc2 : p c = false := by simpa using hc
      rw [if_neg (by simp [hc2])]
      exact hc2

theorem dropWhile_getLast_eq (p : Char → Bool) :
    ∀ l : List Char, l.dropWhile p ≠ [] →
      (l.dropWhile p).getLast? = l.getLast? := by
  intro l
  induction l with
  | nil => intro h; exact absurd rfl h
  | cons c cs ih =>
    intro h
    rw [List.dropWhile_cons] at h ⊢
    by_cases hc : p c = true
    · rw [if_pos hc] at h ⊢
      have hcs : cs ≠ [] := by
        intro he
        rw [he] at h
        exact h rfl
      rw [ih h]
      rcases cs with _ | ⟨b, t⟩
      · exact absurd rfl hcs
      · rw [List.getLast?_cons_cons]
    · rw [if_neg hc] at h ⊢

theorem jsTrimList_headD_not (l : List Char) :
    isJsWs ((jsTrimList l).headD '.') = false := by
  rw [jsTrimList]
  by_cases hz : (l.dropWhile isJsWs).reverse.dropWhile isJsWs = []
  · rw [hz]
    decide
  · have hlast : ((l.dropWhile isJsWs).reverse.dropWhile isJsWs).getLast? =
        (l.dropWhile isJsWs).reverse.getLast? :=
      dropWhile_getLast_eq isJsWs _ hz
    have hheads : (((l.dropWhile isJsWs).reverse.dropWhile isJsWs).reverse).head? =
        (l.dropWhile isJsWs).head? := by
      rw [List.head?_reverse, hlast, List.getLast?_reverse]
    rw [headD_eq_getD, hheads, ← headD_eq_getD]
    exact dropWhile_headD_not isJsWs '.' (by decide) l

/-- C7: the sanitizer satisfies its spec: an empty input yields the empty
string; the result never exceeds 1000 characters; the result carries no
leading whitespace (it was trimmed before the final cap, so the cap only
shortens it); and the function coincides with the spec-worded pipeline —
strip tags, un-escape the six listed entities sequentially, collapse
whitespace runs to single spaces, trim, cap at 1000. -/
theorem C7_cleanHtml_spec (s : String) :
    cleanHtml "" = "" ∧
    (cleanHtml s).length ≤ 1000 ∧
    isJsWs ((cleanHtml s).data.headD '.') = false ∧
    cleanHtml s = cleanHtmlSpec s := by
  refine ⟨rfl, ?_, ?_, rfl⟩
  · by_cases hs : s = ""
    · simp [cleanHtml, hs]
    · rw [cleanHtml, if_neg hs]
      show (List.asString _).length ≤ 1000
      have hlen : ∀ l : List Char, (List.asString l).length = l.length :=
        fun _ => rfl
      rw [hlen, List.length_take]
      exact Nat.min_le_left 1000 _
  · by_cases hs : s = ""
    · rw [hs]
      decide
    · rw [cleanHtml, if_neg hs]
      show isJsWs (((jsTrimList _).take 1000).headD '.') = false
      have htake : ∀ l : List Char, ((l.take 1000).headD '.') = l.headD '.' := by
        intro l
        cases l <;> rfl
      rw [htake]
      exact jsTrimList_headD_not _

/-! ## storeTranslation lemmas (for C8, C6, C9) -/

theorem find?_map_upd_self (loc : String) (t : Translation) :
    ∀ ts : List (String × Translation),
      ts.any (fun p => p.1 == loc) = true →
      List.find? (fun p => p.1 == loc)
          (ts.map (fun p => if p.1 == loc then (loc, t) else p)) = some (loc, t) := by
  intro ts
  induction ts with
  | nil => intro h; simp at h
  | cons q qs ih =>
    intro h
    rcases q with ⟨k, v⟩
    rw [List.map_cons]
    by_cases hk : (k == loc) = true
    · rw [if_pos hk]
      exact List.find?_cons_of_pos _ (by simp)
    · have hk2 : (k == loc) = false := by simpa using hk
      rw [if_neg (by simp [hk2]), List.find?_cons_of_neg _ (by simp [hk2])]
      apply ih
      simpa [List.any_cons, hk2] using h

theorem find?_map_upd_other (loc L : String) (t : Translation)
    (hlt : (loc == L) = false) :
    ∀ ts : List (String × Translation),
      List.find? (fun p => p.1 == L)
          (ts.map (fun p => if p.1 == loc then (loc, t) else p)) =
        List.find? (fun p => p.1 == L) ts := by
  intro ts
  induction ts with
  | nil => rfl
  | cons q qs ih =>
    rcases q with ⟨k, v⟩
    rw [List.map_cons]
    by_cases hk : (k == loc) = true
    · have hkeq : k = loc := by simpa using hk
      have hkL : (k == L) = false := by rw [hkeq]; exact hlt
      rw [if_pos hk, List.find?_cons_of_neg _ (by simp [hlt]),
        List.find?_cons_of_neg _ (by simp [hkL])]
      exact ih
    · have hk2 : (k == loc) = false := by simpa using hk
      rw [if_neg (by simp [hk2])]
      by_cases hkL : (k == L) = true
      · rw [List.find?_cons_of_pos _ (by simp [hkL]),
          List.find?_cons_of_pos _ (by simp [hkL])]
      · have hkL2 : (k == L) = false := by simpa using hkL
        rw [List.find?_cons_of_neg _ (by simp [hkL2]),
          List.find?_cons_of_neg _ (by simp [hkL2])]
        exact ih

theorem lookupTranslation_setEntry_self (ts : List (String × Translation))
    (loc : String) (t : Translation) :
    lookupTranslation (setTranslationEntry ts loc t) loc = some t := by
  rw [setTranslationEntry]
  by_cases hany : ts.any (fun p => p.1 == loc) = true
  · rw [if_pos hany, lookupTranslation, find?_map_upd_self loc t ts hany]
    rfl
  · rw [if_neg hany, lookupTranslation, List.find?_append]
    have hfalse : ts.any (fun p => p.1 == loc) = false := by
      cases hb : ts.any (fun p => p.1 == loc)
      · rfl
      · exact absurd hb hany
    have hnone : List.find? (fun p => p.1 == loc) ts = none := by
      rw [List.find?_eq_none]
      exact List.any_eq_false.mp hfalse
    rw [hnone, Option.none_or, List.find?_cons_of_pos _ (by simp)]
    rfl

theorem lookupTranslation_setEntry_other (ts : List (String × Translation))
    (loc L : String) (t : Translation) (hL : L ≠ loc) :
    lookupTranslation (setTranslationEntry ts loc t) L = lookupTranslation ts L := by
  have hlt : (loc == L) = false := by
    rw [beq_eq_false_iff_ne]
    exact fun h => hL h.symm
  rw [setTranslationEntry]
  by_cases hany : ts.any (fun p => p.1 == loc) = true
  · rw [if_pos hany, lookupTranslation, find?_map_upd_other loc L t hlt ts]
    rfl
  · rw [if_neg hany, lookupTranslation, List.find?_append,
      List.find?_cons_of_neg _ (by simp [hlt]), List.find?_nil, Option.or_none]
    rfl

theorem getArticle_cons_pos (b : StoredArticle) (bs : List StoredArticle)
    (id : String) (h : (b.id == id) = true) :
    getArticle (b :: bs) id = some b := by
  rw [getArticle]
  exact List.find?_cons_of_pos bs h

theorem getArticle_cons_neg (b : StoredArticle) (bs : List StoredArticle)
    (id : String) (h : (b.id == id) = false) :
    getArticle (b :: bs) id = getArticle bs id := by
  rw [getArticle, getArticle]
  exact List.find?_cons_of_neg bs (by simp [h])

theorem storeTranslation_of_absent (id loc t d now : String) :
    ∀ st : Store, getArticle st id = none → storeTranslation st id loc t d now = st := by
  intro st
  induction st with
  | nil => intro _; rfl
  | cons b bs ih =>
    intro h
    rw [getArticle, List.find?_eq_none] at h
    have hb : (b.id == id) = false := by
      have := h b (List.mem_cons_self b bs)
      cases hx : (b.id == id)
      · rfl
      · exact absurd hx this
    have htail : getArticle bs id = none := by
      rw [getArticle, List.find?_eq_none]
      intro x hx
      exact h x (List.mem_cons_of_mem b hx)
    rw [storeTranslation, List.map_cons, if_neg (by simp [hb])]
    exact congrArg (fun x => b :: x) (ih htail)

theorem getArticle_storeTranslation_self (id loc t d now : String)
    (a : StoredArticle) :
    ∀ st : Store, getArticle st id = some a →
      getArticle (storeTranslation st id loc t d now) id =
        some { a with translations :=
          setTranslationEntry a.translations loc ⟨t, d, now⟩ } := by
  intro st
  induction st with
  | nil =>
    intro h
    simp [getArticle] at h
  | cons b bs ih =>
    intro h
    by_cases hb : (b.id == id) = true
    · have hba : b = a := by
        rw [getArticle_cons_pos b bs id hb] at h
        exact Option.some.inj h
      subst hba
      rw [storeTranslation, List.map_cons, if_pos hb]
      exact getArticle_cons_pos _ _ id hb
    · have hb2 : (b.id == id) = false := by
        cases hx : (b.id == id)
        · rfl
        · exact absurd hx hb
      rw [getArticle_cons_neg b bs id hb2] at h
      rw [storeTranslation, List.map_cons, if_neg (by simp [hb2]),
        getArticle_cons_neg _ _ id hb2]
      exact ih h

theorem getArticle_storeTranslation_ne (id loc t d now id2 : String)
    (hne : id2 ≠ id) :
    ∀ st : Store,
      getArticle (storeTranslation st id loc t d now) id2 = getArticle st id2 := by
  intro st
  induction st with
  | nil => rfl
  | cons b bs ih =>
    rw [storeTranslation, List.map_cons]
    by_cases hb : (b.id == id) = true
    · have hid : b.id = id := by
        rw [← beq_iff_eq]
        exact hb
      have hpred : (b.id == id2) = false := by
        rw [beq_eq_false_iff_ne, hid]
        exact fun hx => hne hx.symm
      rw [if_pos hb, getArticle_cons_neg b bs id2 hpred]
      exact (getArticle_cons_neg
        ({ b with translations := setTranslationEntry b.translations loc ⟨t, d, now⟩ })
        (storeTranslation bs id loc t d now) id2 hpred).trans ih
    · have hb2 : (b.id == id) = false := by
        cases hx : (b.id == id)
        · rfl
        · exact absurd hx hb
      rw [if_neg (by simp [hb2])]
      by_cases hp : (b.id == id2) = true
      · rw [getArticle_cons_pos _ _ id2 hp, getArticle_cons_pos _ _ id2 hp]
      · have hp2 : (b.id == id2) = false := by
          cases hx : (b.id == id2)
          · rfl
          · exact absurd hx hp
        rw [getArticle_cons_neg _ _ id2 hp2, getArticle_cons_neg _ _ id2 hp2]
        exact ih

/-! ## Claim theorem: C8 -/

/-- C8: `storeTranslation` with a known id sets or overwrites exactly that
article's entry for the given locale with the given texts and timestamp,
leaves every other locale entry, every other (core) field, and every other
article unchanged; with an unknown id it leaves the store entirely
unchanged — it never creates a dangling entry. -/
theorem C8_storeTranslation_spec (st : Store) (id loc t d now : String) :
    (getArticle st id = none → storeTranslation st id loc t d now = st) ∧
    (∀ a, getArticle st id = some a →
      ∃ a2, getArticle (storeTranslation st id loc t d now) id = some a2 ∧
        lookupTranslation a2.translations loc = some ⟨t, d, now⟩ ∧
        (∀ L, L ≠ loc →
          lookupTranslation a2.translations L = lookupTranslation a.translations L) ∧
        a2.id = a.id ∧ a2.guid = a.guid ∧ a2.title = a.title ∧
        a2.description = a.description ∧ a2.link = a.link ∧
        a2.pubDate = a.pubDate ∧ a2.category = a.category ∧
        a2.subcategory = a.subcategory ∧ a2.source = a.source ∧
        a2.sourceLocale = a.sourceLocale ∧ a2.ingestedAt = a.ingestedAt) ∧
    (∀ id2, id2 ≠ id →
      getArticle (storeTranslation st id loc t d now) id2 = getArticle st id2) := by
  refine ⟨storeTranslation_of_absent id loc t d now st, ?_, ?_⟩
  · intro a ha
    refine ⟨{ a with translations := setTranslationEntry a.translations loc ⟨t, d, now⟩ },
      getArticle_storeTranslation_self id loc t d now a st ha, ?_, ?_, rfl, rfl, rfl,
      rfl, rfl, rfl, rfl, rfl, rfl, rfl, rfl⟩
    · exact lookupTranslation_setEntry_self a.translations loc ⟨t, d, now⟩
    · intro L hL
      exact lookupTranslation_setEntry_other a.translations loc L ⟨t, d, now⟩ hL
  · intro id2 hne
    exact getArticle_storeTranslation_ne id loc t d now id2 hne st

def c8art : StoredArticle :=
  { id := "a1", guid := none, title := "T", description := "D", link := "L",
    pubDate := "P", category := "C", subcategory := "SC", source := "S",
    sourceLocale := "en", ingestedAt := "I",
    translations := [("fr", ⟨"tf", "df", "x"⟩)] }

theorem C8_witness :
    storeTranslation ([] : Store) "a1" "ar" "TT" "DD" "N" = ([] : Store) ∧
    getArticle (storeTranslation [c8art] "a1" "ar" "TT" "DD" "N") "zz" =
      getArticle [c8art] "zz" ∧
    (∃ a2, getArticle (storeTranslation [c8art] "a1" "ar" "TT" "DD" "N") "a1" =
        some a2 ∧
      lookupTranslation a2.translations "ar" = some ⟨"TT", "DD", "N"⟩ ∧
      lookupTranslation a2.translations "fr" =
        lookupTranslation c8art.translations "fr" ∧
      a2.title = c8art.title) := by
  refine ⟨(C8_storeTranslation_spec [] "a1" "ar" "TT" "DD" "N").1 rfl,
    (C8_storeTranslation_spec [c8art] "a1" "ar" "TT" "DD" "N").2.2 "zz" (by decide),
    ?_⟩
  obtain ⟨a2, h1, h2, h3, _, _, h4, _⟩ :=
    (C8_storeTranslation_spec [c8art] "a1" "ar" "TT" "DD" "N").2.1 c8art (by decide)
  exact ⟨a2, h1, h2, h3 "fr" (by decide), h4⟩

/-! ## Translation-queue lemmas and claim theorem C5 -/

theorem translateBatch_error (p : Provider) (now : String)
    (batch : List StoredArticle) (loc : String) (st : Store) (e : String)
    (hfail : p (buildTextObj batch) (batchSourceLocale batch) loc =
      Except.error e) :
    translateBatch p now batch loc st = st := by
  rw [translateBatch, hfail]

theorem foldBatches_cons (p : Provider) (now loc : String)
    (b : List StoredArticle) (bs : List (List StoredArticle)) (st : Store) :
    foldBatches p now loc (b :: bs) st =
      foldBatches p now loc bs (translateBatch p now b loc st) := rfl

theorem foldBatches_all_error (p : Provider) (now loc : String) :
    ∀ (bs : List (List StoredArticle)) (st : Store),
      (∀ b ∈ bs, ∃ e, p (buildTextObj b) (batchSourceLocale b) loc =
        Except.error e) →
      foldBatches p now loc bs st = st := by
  intro bs
  induction bs with
  | nil => intro st _; rfl
  | cons b t ih =>
    intro st hall
    obtain ⟨e, he⟩ := hall b (List.mem_cons_self b t)
    rw [foldBatches_cons, translateBatch_error p now b loc st e he]
    exact ih st (fun b2 hb2 => hall b2 (List.mem_cons_of_mem b hb2))

theorem processLocales_cons (p : Provider) (now : String) (loc : String)
    (ls : List String) (st : Store) :
    processLocales p now (loc :: ls) st =
      processLocales p now ls (processLocale p now st loc) := rfl

/-- C5: translation batches are atomic on failure and failures are local.
A failed provider call leaves the store untouched (no `storeTranslation`
for any article of the batch); removing a failing batch from the per-locale
batch sequence does not change the outcome (the remaining batches are still
processed on the same stores); and a locale all of whose batch calls fail
contributes nothing, with the remaining enabled locales of the cycle
processed exactly as if that locale's work were absent. -/
theorem C5_batch_atomicity (p : Provider) (now loc e : String)
    (batch : List StoredArticle) (st : Store)
    (bs1 bs2 : List (List StoredArticle)) (ls : List String)
    (hfail : p (buildTextObj batch) (batchSourceLocale batch) loc =
      Except.error e) :
    translateBatch p now batch loc st = st ∧
    foldBatches p now loc (bs1 ++ batch :: bs2) st =
      foldBatches p now loc (bs1 ++ bs2) st ∧
    ((∀ b ∈ chunkList BATCH_SIZE
        ((getUntranslatedArticles st loc).filter (fun a => a.sourceLocale != loc)),
        ∃ e2, p (buildTextObj b) (batchSourceLocale b) loc = Except.error e2) →
      processLocales p now (loc :: ls) st = processLocales p now ls st) := by
  refine ⟨translateBatch_error p now batch loc st e hfail, ?_, ?_⟩
  · induction bs1 generalizing st with
    | nil =>
      rw [List.nil_append, List.nil_append, foldBatches_cons,
        translateBatch_error p now batch loc st e hfail]
    | cons b t ih =>
      rw [List.cons_append, List.cons_append, foldBatches_cons, foldBatches_cons]
      exact ih _
  · intro hall
    rw [processLocales_cons, processLocale,
      foldBatches_all_error p now loc _ st hall]

def c5art : StoredArticle :=
  { id := "q1", guid := none, title := "T", description := "D", link := "L",
    pubDate := "P", category := "C", subcategory := "SC", source := "S",
    sourceLocale := "ar", ingestedAt := "I", translations := [] }

theorem C5_witness :
    translateBatch (fun _ _ _ => Except.error "boom") "n" [c5art] "en" [c5art] =
      [c5art] ∧
    foldBatches (fun _ _ _ => Except.error "boom") "n" "en"
        ([] ++ [c5art] :: []) [c5art] =
      foldBatches (fun _ _ _ => Except.error "boom") "n" "en" ([] ++ []) [c5art] ∧
    processLocales (fun _ _ _ => Except.error "boom") "n" ("en" :: ["ar"]) [c5art] =
      processLocales (fun _ _ _ => Except.error "boom") "n" ["ar"] [c5art] := by
  have h := C5_batch_atomicity (fun _ _ _ => Except.error "boom") "n" "en" "boom"
    [c5art] [c5art] [] [] ["ar"] rfl
  exact ⟨h.1, h.2.1, h.2.2 (fun b _ => ⟨"boom", rfl⟩)⟩

/-! ## Write-back lemmas and claim theorem C6 -/

theorem hasId_eq_isSome (s : Store) (id : String) :
    hasId s id = (getArticle s id).isSome := by
  induction s with
  | nil => rfl
  | cons b bs ih =>
    rw [hasId, List.any_cons]
    by_cases hb : (b.id == id) = true
    · rw [getArticle_cons_pos b bs id hb, hb]
      rfl
    · have hb2 : (b.id == id) = false := by
        cases hx : (b.id == id)
        · rfl
        · exact absurd hx hb
      rw [getArticle_cons_neg b bs id hb2, hb2, Bool.false_or]
      exact ih

theorem hasId_true_exists (s : Store) (id : String) (h : hasId s id = true) :
    ∃ a, getArticle s id = some a := by
  rw [hasId_eq_isSome] at h
  exact Option.isSome_iff_exists.mp h

theorem hasId_storeTranslation (i loc t d n id : String) (s : Store) :
    hasId (storeTranslation s i loc t d n) id = hasId s id := by
  rw [hasId_eq_isSome, hasId_eq_isSome]
  by_cases hii : id = i
  · subst hii
    rcases hg : getArticle s id with _ | a0
    · rw [storeTranslation_of_absent id loc t d n s hg, hg]
    · rw [getArticle_storeTranslation_self id loc t d n a0 s hg]
      rfl
  · rw [getArticle_storeTranslation_ne i loc t d n id hii s]

theorem storeFold_keeps_ne (loc now : String) (f g : StoredArticle → String)
    (id : String) :
    ∀ (l : List StoredArticle) (st : Store), (∀ x ∈ l, x.id ≠ id) →
      getArticle
          (l.foldl (fun s x => storeTranslation s x.id loc (f x) (g x) now) st)
          id =
        getArticle st id := by
  intro l
  induction l with
  | nil => intro st _; rfl
  | cons b t ih =>
    intro st hl
    rw [List.foldl_cons, ih _ (fun x hx => hl x (List.mem_cons_of_mem b hx))]
    exact getArticle_storeTranslation_ne b.id loc (f b) (g b) now id
      (Ne.symm (hl b (List.mem_cons_self b t))) st

theorem storeFold_writes (loc now : String) (f g : StoredArticle → String) :
    ∀ (l : List StoredArticle) (st : Store),
      (l.map (fun x => x.id)).Nodup →
      ∀ a ∈ l, hasId st a.id = true →
      ∃ a2, getArticle
          (l.foldl (fun s x => storeTranslation s x.id loc (f x) (g x) now) st)
          a.id = some a2 ∧
        lookupTranslation a2.translations loc = some ⟨f a, g a, now⟩ := by
  intro l
  induction l with
  | nil =>
    intro st _ a ha
    exact absurd ha (List.not_mem_nil a)
  | cons b t ih =>
    intro st hnd a ha hhas
    rw [List.foldl_cons]
    rcases List.mem_cons.mp ha with hab | hat
    · subst hab
      obtain ⟨a0, hg⟩ := hasId_true_exists st a.id hhas
      have hself := getArticle_storeTranslation_self a.id loc (f a) (g a) now a0 st hg
      have hnotin : ∀ x ∈ t, x.id ≠ a.id := by
        have hh := (List.nodup_cons.mp hnd).1
        intro x hx he
        apply hh
        have hm : x.id ∈ t.map (fun y : StoredArticle => y.id) :=
          List.mem_map.mpr ⟨x, hx, rfl⟩
        rw [he] at hm
        exact hm
      rw [storeFold_keeps_ne loc now f g a.id t _ hnotin, hself]
      exact ⟨_, rfl, lookupTranslation_setEntry_self a0.translations loc ⟨f a, g a, now⟩⟩
    · have hhas2 := hasId_storeTranslation b.id loc (f b) (g b) now a.id st
      exact ih _ (List.nodup_cons.mp hnd).2 a hat (by rw [hhas2]; exact hhas)

/-- C6 (amended): when the provider call for a batch succeeds, every
article of the batch that is present in the store receives one complete
translation entry for the target locale: per key, the returned text when
the response carries a non-empty value for that key, and the article's
original title/description when the key is missing from the response or
mapped to the empty string (the code's `||` fallback). -/
theorem C6_partial_response_fallback (p : Provider) (now loc : String)
    (batch : List StoredArticle) (st : Store)
    (translated : List (String × String))
    (hok : p (buildTextObj batch) (batchSourceLocale batch) loc =
      Except.ok translated)
    (hnodup : (batch.map (fun a => a.id)).Nodup) :
    ∀ a ∈ batch, hasId st a.id = true →
      ∃ a2, getArticle (translateBatch p now batch loc st) a.id = some a2 ∧
        lookupTranslation a2.translations loc =
          some ⟨jsOr (lookupKey translated (a.id ++ "__title")) a.title,
                jsOr (lookupKey translated (a.id ++ "__desc")) a.description,
                now⟩ := by
  intro a ha hhas
  rw [translateBatch, hok]
  exact storeFold_writes loc now
    (fun x => jsOr (lookupKey translated (x.id ++ "__title")) x.title)
    (fun x => jsOr (lookupKey translated (x.id ++ "__desc")) x.description)
    batch st hnodup a ha hhas

def c6art : StoredArticle :=
  { id := "a1", guid := none, title := "T", description := "D", link := "L",
    pubDate := "P", category := "C", subcategory := "SC", source := "S",
    sourceLocale := "ar", ingestedAt := "I", translations := [] }

def c6resp : List (String × String) := [("a1__title", ""), ("a1__desc", "X")]

def c6provider : Provider := fun _ _ _ => Except.ok c6resp

/-- C6 counterexample to the claim as stated: the provider response
contains the requested title key, mapped to the empty string.  The claim
says the stored entry uses the returned text for keys present in the
response, which would store "".  The code's `translated[key] || original`
fallback treats the empty string as falsy and stores the original title
"T" instead. -/
theorem C6_counterexample :
    lookupKey c6resp "a1__title" = some "" ∧
    ((getArticle (translateBatch c6provider "n" [c6art] "en" [c6art]) "a1").bind
      (fun a => lookupTranslation a.translations "en")) =
      some ⟨"T", "X", "n"⟩ ∧
    ¬ (((getArticle (translateBatch c6provider "n" [c6art] "en" [c6art]) "a1").bind
      (fun a => lookupTranslation a.translations "en")) = some ⟨"", "X", "n"⟩) :=
  ⟨by decide, by decide, by decide⟩

def c6resp2 : List (String × String) := [("a1__title", "TT")]

theorem C6_witness :
    jsOr (lookupKey c6resp2 ("a1" ++ "__title")) "T" = "TT" ∧
    jsOr (lookupKey c6resp2 ("a1" ++ "__desc")) "D" = "D" ∧
    (∃ a2, getArticle (translateBatch (fun _ _ _ => Except.ok c6resp2) "n"
          [c6art] "en" [c6art]) "a1" = some a2 ∧
      lookupTranslation a2.translations "en" =
        some ⟨jsOr (lookupKey c6resp2 ("a1" ++ "__title")) "T",
              jsOr (lookupKey c6resp2 ("a1" ++ "__desc")) "D", "n"⟩) := by
  refine ⟨by decide, by decide, ?_⟩
  exact C6_partial_response_fallback (fun _ _ _ => Except.ok c6resp2) "n" "en"
    [c6art] [c6art] c6resp2 rfl (by decide) c6art (by decide) (by decide)

/-! ## No-self-translation invariant and claim theorem C9 -/

theorem lookupTr_cons_pos (q : String × Translation)
    (qs : List (String × Translation)) (L : String) (h : (q.1 == L) = true) :
    lookupTranslation (q :: qs) L = some q.2 := by
  rw [lookupTranslation]
  have hf : List.find? (fun p => p.1 == L) (q :: qs) = some q :=
    List.find?_cons_of_pos qs h
  rw [hf]
  rfl

theorem lookupTr_cons_neg (q : String × Translation)
    (qs : List (String × Translation)) (L : String) (h : (q.1 == L) = false) :
    lookupTranslation (q :: qs) L = lookupTranslation qs L := by
  rw [lookupTranslation, lookupTranslation]
  have hf : List.find? (fun p => p.1 == L) (q :: qs) =
      List.find? (fun p => p.1 == L) qs :=
    List.find?_cons_of_neg qs (by simp [h])
  rw [hf]

theorem transAny_eq_isSome (L : String) :
    ∀ ts : List (String × Translation),
      ts.any (fun p => p.1 == L) = (lookupTranslation ts L).isSome := by
  intro ts
  induction ts with
  | nil => rfl
  | cons q qs ih =>
    rw [List.any_cons]
    by_cases hq : (q.1 == L) = true
    · rw [lookupTr_cons_pos q qs L hq, hq]
      rfl
    · have hq2 : (q.1 == L) = false := by
        cases hx : (q.1 == L)
        · rfl
        · exact absurd hx hq
      rw [lookupTr_cons_neg q qs L hq2, hq2, Bool.false_or]
      exact ih

theorem transAny_setEntry (ts : List (String × Translation))
    (loc L : String) (t : Translation) :
    ((setTranslationEntry ts loc t).any (fun p => p.1 == L)) = true ↔
      (L = loc ∨ ts.any (fun p => p.1 == L) = true) := by
  rw [transAny_eq_isSome, transAny_eq_isSome]
  by_cases hL : L = loc
  · subst hL
    rw [lookupTranslation_setEntry_self]
    constructor
    · intro _
      exact Or.inl rfl
    · intro _
      rfl
  · rw [lookupTranslation_setEntry_other ts loc L t hL]
    constructor
    · exact Or.inr
    · intro h
      rcases h with h | h
      · exact absurd h hL
      · exact h

theorem q_storeTranslation (id L srcLoc i loc t d n : String) (st : Store)
    (hguard : i = id → srcLoc ≠ loc)
    (hq : ∀ b, getArticle st id = some b →
      b.sourceLocale = srcLoc ∧ (hasTranslationFor b L = true → b.sourceLocale ≠ L)) :
    ∀ b, getArticle (storeTranslation st i loc t d n) id = some b →
      b.sourceLocale = srcLoc ∧ (hasTranslationFor b L = true → b.sourceLocale ≠ L) := by
  intro b hb
  by_cases hii : i = id
  · subst hii
    rcases hg : getArticle st i with _ | a0
    · rw [storeTranslation_of_absent i loc t d n st hg] at hb
      exact hq b hb
    · rw [getArticle_storeTranslation_self i loc t d n a0 st hg] at hb
      have hb2 := Option.some.inj hb
      obtain ⟨hsl, himp⟩ := hq a0 hg
      subst hb2
      refine ⟨hsl, ?_⟩
      intro htr
      have hcases := (transAny_setEntry a0.translations loc L ⟨t, d, n⟩).mp htr
      rcases hcases with hL | hprev
      · subst hL
        show a0.sourceLocale ≠ L
        rw [hsl]
        exact hguard rfl
      · show a0.sourceLocale ≠ L
        exact himp hprev
  · rw [getArticle_storeTranslation_ne i loc t d n id
      (fun hx => hii hx.symm) st] at hb
    exact hq b hb

theorem q_storeFold (id L srcLoc loc now : String) (f g : StoredArticle → String) :
    ∀ (l : List StoredArticle) (st : Store),
      (∀ x ∈ l, x.sourceLocale ≠ loc ∧ (x.id = id → x.sourceLocale = srcLoc)) →
      (∀ b, getArticle st id = some b →
        b.sourceLocale = srcLoc ∧ (hasTranslationFor b L = true → b.sourceLocale ≠ L)) →
      ∀ b, getArticle
          (l.foldl (fun s x => storeTranslation s x.id loc (f x) (g x) now) st)
          id = some b →
        b.sourceLocale = srcLoc ∧ (hasTranslationFor b L = true → b.sourceLocale ≠ L) := by
  intro l
  induction l with
  | nil =>
    intro st _ hq
    exact hq
  | cons c t ih =>
    intro st hl hq
    rw [List.foldl_cons]
    refine ih _ (fun x hx => hl x (List.mem_cons_of_mem c hx)) ?_
    refine q_storeTranslation id L srcLoc c.id loc (f c) (g c) now st ?_ hq
    intro hcid
    obtain ⟨hsc, hc2⟩ := hl c (List.mem_cons_self c t)
    rw [← hc2 hcid]
    exact hsc

theorem q_translateBatch (p : Provider) (now id L srcLoc loc : String)
    (batch : List StoredArticle) (st : Store)
    (hbatch : ∀ x ∈ batch,
      x.sourceLocale ≠ loc ∧ (x.id = id → x.sourceLocale = srcLoc))
    (hq : ∀ b, getArticle st id = some b →
      b.sourceLocale = srcLoc ∧ (hasTranslationFor b L = true → b.sourceLocale ≠ L)) :
    ∀ b, getArticle (translateBatch p now batch loc st) id = some b →
      b.sourceLocale = srcLoc ∧ (hasTranslationFor b L = true → b.sourceLocale ≠ L) := by
  rw [translateBatch]
  cases hp : p (buildTextObj batch) (batchSourceLocale batch) loc with
  | error e => exact hq
  | ok translated =>
    exact q_storeFold id L srcLoc loc now
      (fun x => jsOr (lookupKey translated (x.id ++ "__title")) x.title)
      (fun x => jsOr (lookupKey translated (x.id ++ "__desc")) x.description)
      batch st hbatch hq

theorem ids_storeTranslation (i loc t d n : String) :
    ∀ s : Store,
      (storeTranslation s i loc t d n).map (fun a => a.id) =
        s.map (fun a => a.id) := by
  intro s
  induction s with
  | nil => rfl
  | cons b bs ih =>
    rw [storeTranslation, List.map_cons]
    by_cases hb : (b.id == i) = true
    · rw [if_pos hb]
      exact congrArg (fun xs => b.id :: xs) ih
    · rw [if_neg hb]
      exact congrArg (fun xs => b.id :: xs) ih

theorem ids_storeFold (loc now : String) (f g : StoredArticle → String) :
    ∀ (l : List StoredArticle) (st : Store),
      ((l.foldl (fun s x => storeTranslation s x.id loc (f x) (g x) now) st).map
        (fun a => a.id)) = st.map (fun a => a.id) := by
  intro l
  induction l with
  | nil => intro st; rfl
  | cons c t ih =>
    intro st
    rw [List.foldl_cons, ih, ids_storeTranslation]

theorem ids_translateBatch (p : Provider) (now loc : String)
    (batch : List StoredArticle) (st : Store) :
    (translateBatch p now batch loc st).map (fun a => a.id) =
      st.map (fun a => a.id) := by
  rw [translateBatch]
  cases hp : p (buildTextObj batch) (batchSourceLocale batch) loc with
  | error e => rfl
  | ok translated => exact ids_storeFold loc now _ _ batch st

theorem ids_foldBatches (p : Provider) (now loc : String) :
    ∀ (bs : List (List StoredArticle)) (st : Store),
      (foldBatches p now loc bs st).map (fun a => a.id) =
        st.map (fun a => a.id) := by
  intro bs
  induction bs with
  | nil => intro st; rfl
  | cons b t ih =>
    intro st
    rw [foldBatches_cons, ih, ids_translateBatch]

theorem ids_processLocale (p : Provider) (now loc : String) (st : Store) :
    (processLocale p now st loc).map (fun a => a.id) = st.map (fun a => a.id) := by
  rw [processLocale]
  exact ids_foldBatches p now loc _ st

theorem getArticle_of_mem_nodup :
    ∀ (s : Store), (s.map (fun a => a.id)).Nodup →
      ∀ a ∈ s, getArticle s a.id = some a := by
  intro s
  induction s with
  | nil =>
    intro _ a ha
    exact absurd ha (List.not_mem_nil a)
  | cons b bs ih =>
    intro hnd a ha
    rcases List.mem_cons.mp ha with hab | hat
    · subst hab
      exact getArticle_cons_pos a bs a.id (by simp)
    · have hne : (b.id == a.id) = false := by
        rw [beq_eq_false_iff_ne]
        intro he
        apply (List.nodup_cons.mp hnd).1
        have hm : a.id ∈ bs.map (fun y : StoredArticle => y.id) :=
          List.mem_map.mpr ⟨a, hat, rfl⟩
        show b.id ∈ bs.map (fun y : StoredArticle => y.id)
        rw [he]
        exact hm
      rw [getArticle_cons_neg b bs a.id hne]
      exact ih (List.nodup_cons.mp hnd).2 a hat

theorem chunkListAux_mem {α : Type} (n : Nat) :
    ∀ (fuel : Nat) (l : List α) (b : List α),
      b ∈ chunkListAux n fuel l → ∀ x ∈ b, x ∈ l := by
  intro fuel
  induction fuel with
  | zero =>
    intro l b hb
    cases l with
    | nil => exact absurd hb (List.not_mem_nil b)
    | cons y ys => exact absurd hb (List.not_mem_nil b)
  | succ fuel ih =>
    intro l b hb x hx
    cases l with
    | nil => exact absurd hb (List.not_mem_nil b)
    | cons y ys =>
      rcases List.mem_cons.mp hb with hbt | hbr
      · subst hbt
        exact List.take_subset n (y :: ys) hx
      · exact List.drop_subset n (y :: ys) (ih (List.drop n (y :: ys)) b hbr x hx)

theorem chunkList_mem {α : Type} (n : Nat) (l : List α) (b : List α)
    (hb : b ∈ chunkList n l) : ∀ x ∈ b, x ∈ l := by
  rw [chunkList] at hb
  by_cases hn : n = 0
  · rw [if_pos hn] at hb
    exact absurd hb (List.not_mem_nil b)
  · rw [if_neg hn] at hb
    exact chunkListAux_mem n l.length l b hb

theorem q_foldBatches (p : Provider) (now id L srcLoc loc : String) :
    ∀ (bs : List (List StoredArticle)) (st : Store),
      (∀ b ∈ bs, ∀ x ∈ b,
        x.sourceLocale ≠ loc ∧ (x.id = id → x.sourceLocale = srcLoc)) →
      (∀ b, getArticle st id = some b →
        b.sourceLocale = srcLoc ∧ (hasTranslationFor b L = true → b.sourceLocale ≠ L)) →
      ∀ b, getArticle (foldBatches p now loc bs st) id = some b →
        b.sourceLocale = srcLoc ∧ (hasTranslationFor b L = true → b.sourceLocale ≠ L) := by
  intro bs
  induction bs with
  | nil =>
    intro st _ hq
    exact hq
  | cons b t ih =>
    intro st hall hq
    rw [foldBatches_cons]
    exact ih _ (fun b2 hb2 => hall b2 (List.mem_cons_of_mem b hb2))
      (q_translateBatch p now id L srcLoc loc b st
        (hall b (List.mem_cons_self b t)) hq)

theorem q_processLocale (p : Provider) (now id L srcLoc loc : String) (st : Store)
    (hnodup : (st.map (fun a => a.id)).Nodup)
    (hq : ∀ b, getArticle st id = some b →
      b.sourceLocale = srcLoc ∧ (hasTranslationFor b L = true → b.sourceLocale ≠ L)) :
    ∀ b, getArticle (processLocale p now st loc) id = some b →
      b.sourceLocale = srcLoc ∧ (hasTranslationFor b L = true → b.sourceLocale ≠ L) := by
  rw [processLocale]
  have hmem : ∀ b ∈ chunkList BATCH_SIZE
      ((getUntranslatedArticles st loc).filter (fun a => a.sourceLocale != loc)),
      ∀ x ∈ b, x.sourceLocale ≠ loc ∧ (x.id = id → x.sourceLocale = srcLoc) := by
    intro b hb x hx
    have hx2 := chunkList_mem BATCH_SIZE _ b hb x hx
    have hx3 := List.mem_filter.mp hx2
    refine ⟨by simpa using hx3.2, ?_⟩
    intro hxid
    have hx4 : x ∈ st := (List.mem_filter.mp hx3.1).1
    have hget : getArticle st x.id = some x := getArticle_of_mem_nodup st hnodup x hx4
    rw [hxid] at hget
    exact (hq x hget).1
  exact q_foldBatches p now id L srcLoc loc _ st hmem hq

theorem q_processLocales (p : Provider) (now id L srcLoc : String) :
    ∀ (ls : List String) (st : Store),
      (st.map (fun a => a.id)).Nodup →
      (∀ b, getArticle st id = some b →
        b.sourceLocale = srcLoc ∧ (hasTranslationFor b L = true → b.sourceLocale ≠ L)) →
      ∀ b, getArticle (processLocales p now ls st) id = some b →
        b.sourceLocale = srcLoc ∧ (hasTranslationFor b L = true → b.sourceLocale ≠ L) := by
  intro ls
  induction ls with
  | nil =>
    intro st _ hq
    exact hq
  | cons loc t ih =>
    intro st hnd hq
    rw [processLocales_cons]
    refine ih _ ?_ (q_processLocale p now id L srcLoc loc st hnd hq)
    rw [ids_processLocale]
    exact hnd

/-- C9: the queue never self-translates.  If an article had no translation
entry for locale `L` before a `processQueue` cycle and carries one after,
then `L` is not its `sourceLocale` (which the cycle never changes): the
cycle filters out, for every enabled target locale, the articles whose
`sourceLocale` equals that locale before batching, so no article gains an
entry keyed by its own source locale through the queue. -/
theorem C9_no_self_translation (p : Provider) (now : String) (st : Store)
    (id L : String) (a a2 : StoredArticle)
    (hnodup : (st.map (fun x => x.id)).Nodup)
    (h0 : getArticle st id = some a)
    (hno : hasTranslationFor a L = false)
    (h1 : getArticle (processQueue p now st) id = some a2)
    (hyes : hasTranslationFor a2 L = true) :
    a2.sourceLocale ≠ L ∧ a2.sourceLocale = a.sourceLocale := by
  have hq0 : ∀ b, getArticle st id = some b →
      b.sourceLocale = a.sourceLocale ∧
        (hasTranslationFor b L = true → b.sourceLocale ≠ L) := by
    intro b hb
    rw [h0] at hb
    cases Option.some.inj hb
    refine ⟨rfl, ?_⟩
    intro htr
    rw [hno] at htr
    cases htr
  have hqf := q_processLocales p now id L a.sourceLocale ENABLED_LOCALES st
    hnodup hq0 a2 h1
  exact ⟨hqf.2 hyes, hqf.1⟩

def c9art : StoredArticle :=
  { id := "w1", guid := none, title := "T", description := "D", link := "L",
    pubDate := "P", category := "C", subcategory := "SC", source := "S",
    sourceLocale := "ar", ingestedAt := "I", translations := [] }

def c9artAfter : StoredArticle :=
  { c9art with translations := [("en", ⟨"T", "D", "n"⟩)] }

theorem C9_witness :
    c9artAfter.sourceLocale ≠ "en" ∧
    c9artAfter.sourceLocale = c9art.sourceLocale :=
  C9_no_self_translation (fun obj _ _ => Except.ok obj) "n" [c9art] "w1" "en"
    c9art c9artAfter (by decide) (by decide) (by decide) (by decide) (by decide)

end Lingo
